import Mathlib

/-
Verification development for the reddit data-collection tool
(src/app/main.py, class RedditDataCollector).

The external platform client (praw) is modelled as an environment
function: a search environment mapping a (subreddit, keyword) pair to
either a list of submissions or an error, and a fetch environment
mapping a post identifier to either a comment forest or an error.  The
fixed pass-through parameters limit/sort/time_filter of search_posts
are absorbed into the search environment, since the code only forwards
them to the client.  Timestamps are modelled as integers (epoch
seconds); datetime.fromtimestamp is strictly monotone, so the date
comparisons of the code are faithfully represented by integer
comparisons.
-/

/-- A post-like object yielded by the platform search client: exactly the
fields of `submission` that `search_posts` reads (src/app/main.py lines
73-88).  `upvote_frac` stands for the `upvote_ratio` float, carried
through unchanged and kept abstract as its rendered text. -/
structure Submission where
  id : String
  title : String
  author : String
  created_utc : Int
  score : Int
  upvote_frac : String
  num_comments : Int
  url : String
  selftext : String
  link_flair_text : Option String
  is_self : Bool
  permalink : String
  deriving DecidableEq

/-- One row of the posts table: the dict appended to `all_results`
(src/app/main.py lines 73-88). -/
structure PostRecord where
  subreddit : String
  search_keyword : String
  post_id : String
  title : String
  author : String
  created_utc : Int
  score : Int
  upvote_frac : String
  num_comments : Int
  url : String
  selftext : String
  link_flair_text : Option String
  is_self : Bool
  permalink : String
  deriving DecidableEq

/-- Building the posts-table row from a submission (lines 73-88). -/
def toRecord (subreddit_name keyword : String) (s : Submission) : PostRecord :=
  { subreddit := subreddit_name
    search_keyword := keyword
    post_id := s.id
    title := s.title
    author := s.author
    created_utc := s.created_utc
    score := s.score
    upvote_frac := s.upvote_frac
    num_comments := s.num_comments
    url := s.url
    selftext := s.selftext
    link_flair_text := s.link_flair_text
    is_self := s.is_self
    permalink := "https://reddit.com" ++ s.permalink }

/-- `if start_date and post_date < start_date: continue` (line 68):
the skip condition of the lower date bound.  A present datetime is
always truthy in Python, so truthiness is exactly `Option.isSome`. -/
def skipByStart (start_date : Option Int) (t : Int) : Bool :=
  match start_date with
  | none => false
  | some v => decide (t < v)

/-- `if end_date and post_date > end_date: continue` (line 70): the skip
condition of the upper date bound. -/
def skipByEnd (end_date : Option Int) (t : Int) : Bool :=
  match end_date with
  | none => false
  | some v => decide (v < t)

/-- A submission survives both date filters (lines 68-71). -/
def inWindow (start_date end_date : Option Int) (t : Int) : Bool :=
  !skipByStart start_date t && !skipByEnd end_date t

/-- The inner `for submission in subreddit.search(...)` loop body for one
(subreddit, keyword) pair: filter by the date bounds, and turn the
surviving submissions into rows (lines 59-88). -/
def collectKw (start_date end_date : Option Int) (sub kw : String) :
    List Submission → List PostRecord
  | [] => []
  | s :: rest =>
    if skipByStart start_date s.created_utc then
      collectKw start_date end_date sub kw rest
    else if skipByEnd end_date s.created_utc then
      collectKw start_date end_date sub kw rest
    else
      toRecord sub kw s :: collectKw start_date end_date sub kw rest

/-- The search environment: what `subreddit.search(keyword, ...)` yields
for one (subreddit, keyword) pair, or the exception it raises. -/
abbrev SearchEnv := String → String → Except Unit (List Submission)

/-- The `for keyword in keywords` loop of one subreddit (lines 55-88),
threading the global accumulator `all_results`.  The whole keyword loop
sits inside the per-subreddit `try`, so the first keyword whose search
raises ends the loop with the rows accumulated so far: earlier appends
to `all_results` are kept (lines 52, 90-92). -/
def collectSub (env : SearchEnv) (start_date end_date : Option Int)
    (sub : String) : List String → List PostRecord → List PostRecord
  | [], acc => acc
  | kw :: rest, acc =>
    match env sub kw with
    | .error _ => acc
    | .ok subs =>
      collectSub env start_date end_date sub rest
        (acc ++ collectKw start_date end_date sub kw subs)

/-- The outer `for subreddit_name in subreddits` loop (lines 49-92):
every subreddit is processed; a raised exception is caught at the
subreddit boundary and the loop continues. -/
def allResultsAux (env : SearchEnv) (start_date end_date : Option Int)
    (kws : List String) : List String → List PostRecord → List PostRecord
  | [], acc => acc
  | sub :: rest, acc =>
    allResultsAux env start_date end_date kws rest
      (collectSub env start_date end_date sub kws acc)

/-- `all_results` after both loops have run (line 47-92). -/
def allResults (env : SearchEnv) (start_date end_date : Option Int)
    (subs kws : List String) : List PostRecord :=
  allResultsAux env start_date end_date kws subs []

/-- `df.drop_duplicates(subset=[...], keep=...)` with the first
occurrence kept (line 98): drop a row whose post identifier was already
seen, keep it otherwise and remember its identifier. -/
def dedupAux (seen : List String) : List PostRecord → List PostRecord
  | [] => []
  | r :: rest =>
    if r.post_id ∈ seen then dedupAux seen rest
    else r :: dedupAux (r.post_id :: seen) rest

/-- `search_posts` (lines 21-101): run the nested loops, then collapse
duplicate post identifiers keeping the first occurrence.  (The code
guards the dedup by `len(df) > 0`; dedup of the empty table is the
empty table, so the guard is behaviourally irrelevant.) -/
def search_posts (env : SearchEnv) (subs kws : List String)
    (start_date end_date : Option Int) : List PostRecord :=
  dedupAux [] (allResults env start_date end_date subs kws)

/-- Per-subreddit contribution to `all_results`, starting from an empty
accumulator. -/
def perSub (env : SearchEnv) (start_date end_date : Option Int)
    (kws : List String) (sub : String) : List PostRecord :=
  collectSub env start_date end_date sub kws []

/-
get_comments (src/app/main.py lines 103-154).  The comment tree of a
post is a forest whose nodes are either genuine comments (praw
Comment) or "load more comments" placeholders (praw MoreComments); a
placeholder stands for a list of further nodes that an expansion call
would fetch.
-/

/-- A comment object of the platform client: the fields `get_comments`
reads (lines 136-145). -/
structure CommentObj where
  id : String
  author : String
  body : String
  score : Int
  created_utc : Int
  is_submitter : Bool
  permalink : String
  deriving DecidableEq

/-- A node of the fetched comment forest: a genuine comment with its
replies, or a "load more comments" placeholder hiding further nodes. -/
inductive CTree where
  | comment : CommentObj → List CTree → CTree
  | more : List CTree → CTree

/-- `submission.comments.replace_more(limit=0)` (line 127).  Per the
praw client contract, `limit=0` REMOVES every MoreComments placeholder
from the forest without issuing any expansion request: the hidden
nodes are discarded, nothing is fetched. -/
def replaceMoreZeroF : List CTree → List CTree
  | [] => []
  | CTree.comment c kids :: rest =>
    CTree.comment c (replaceMoreZeroF kids) :: replaceMoreZeroF rest
  | CTree.more _ :: rest => replaceMoreZeroF rest

/-- Modelled from the spec: the behaviour the specification describes
for line 127 — resolve/expand every placeholder eagerly with unlimited
depth (the praw call would be `replace_more(limit=None)`), so the
hidden nodes become part of the forest. -/
def resolveMoreAll : List CTree → List CTree
  | [] => []
  | CTree.comment c kids :: rest =>
    CTree.comment c (resolveMoreAll kids) :: resolveMoreAll rest
  | CTree.more h :: rest => resolveMoreAll h ++ resolveMoreAll rest

/-- `submission.comments.list()` (line 132): the flattened view of the
forest, listing every node at every depth (placeholders included; the
isinstance check filters them later). -/
def flattenForest : List CTree → List CTree
  | [] => []
  | CTree.comment c kids :: rest =>
    CTree.comment c kids :: (flattenForest kids ++ flattenForest rest)
  | CTree.more h :: rest => CTree.more h :: flattenForest rest

/-- The forest contains no placeholder node at any depth. -/
def noMoreNodes : List CTree → Bool
  | [] => true
  | CTree.comment _ kids :: rest => noMoreNodes kids && noMoreNodes rest
  | CTree.more _ :: _ => false

/-- The genuine comment objects of the forest outside any placeholder,
in flattened reading order. -/
def genuineData (f : List CTree) : List CommentObj :=
  (flattenForest f).filterMap fun t =>
    match t with
    | CTree.comment c _ => some c
    | CTree.more _ => none

/-- One row of the comments table: the dict appended to `all_comments`
(lines 136-145). -/
structure CommentRecord where
  post_id : String
  comment_id : String
  author : String
  body : String
  score : Int
  created_utc : Int
  is_submitter : Bool
  permalink : String
  deriving DecidableEq

/-- Building a comments-table row (lines 136-145). -/
def commentRecord (pid : String) (c : CommentObj) : CommentRecord :=
  { post_id := pid
    comment_id := c.id
    author := c.author
    body := c.body
    score := c.score
    created_utc := c.created_utc
    is_submitter := c.is_submitter
    permalink := "https://reddit.com" ++ c.permalink }

/-- `if limit and len(all_comments) >= limit` (line 147): Python
truthiness makes both `None` and `0` disable the cap. -/
def capHit (lim : Option Nat) (n : Nat) : Bool :=
  match lim with
  | none => false
  | some l => decide (l ≠ 0) && decide (l ≤ n)

/-- The `for comment in comments` loop of one post (lines 134-148):
append a row for each genuine comment; after an append, if the cap is
truthy and the GLOBAL running total has reached it, `break` — which
exits only this inner loop. -/
def processComments (lim : Option Nat) (pid : String) :
    List CommentRecord → List CTree → List CommentRecord
  | acc, [] => acc
  | acc, t :: rest =>
    match t with
    | CTree.comment c _ =>
      let acc' := acc ++ [commentRecord pid c]
      if capHit lim acc'.length then acc'
      else processComments lim pid acc' rest
    | CTree.more _ => processComments lim pid acc rest

/-- The fetch environment: fetching one post's comment forest
(`reddit.submission(id)` plus reading its comments), or the exception
this raises. -/
abbrev FetchEnv := String → Except Unit (List CTree)

/-- The `for idx, post_id in enumerate(post_ids)` loop (lines 122-152):
an exception for one post is caught at the post boundary and the loop
continues with the next identifier. -/
def getCommentsAux (fetch : FetchEnv) (top_level_only : Bool)
    (lim : Option Nat) : List String → List CommentRecord → List CommentRecord
  | [], acc => acc
  | pid :: rest, acc =>
    match fetch pid with
    | .error _ => getCommentsAux fetch top_level_only lim rest acc
    | .ok forest =>
      let pruned := replaceMoreZeroF forest
      let comments := if top_level_only then pruned else flattenForest pruned
      getCommentsAux fetch top_level_only lim rest
        (processComments lim pid acc comments)

/-- `get_comments` (lines 103-154). -/
def get_comments (fetch : FetchEnv) (post_ids : List String)
    (top_level_only : Bool) (lim : Option Nat) : List CommentRecord :=
  getCommentsAux fetch top_level_only lim post_ids []

/-- Modelled from the spec: `get_comments` as the specification
describes it, with placeholders fully resolved (unlimited expansion)
instead of removed.  Used only to compare the spec reading of line 127
against the code. -/
def getCommentsResolvedAux (fetch : FetchEnv) (top_level_only : Bool)
    (lim : Option Nat) : List String → List CommentRecord → List CommentRecord
  | [], acc => acc
  | pid :: rest, acc =>
    match fetch pid with
    | .error _ => getCommentsResolvedAux fetch top_level_only lim rest acc
    | .ok forest =>
      let resolved := resolveMoreAll forest
      let comments := if top_level_only then resolved else flattenForest resolved
      getCommentsResolvedAux fetch top_level_only lim rest
        (processComments lim pid acc comments)

/-- Modelled from the spec: spec-reading entry point of get_comments. -/
def get_comments_resolved (fetch : FetchEnv) (post_ids : List String)
    (top_level_only : Bool) (lim : Option Nat) : List CommentRecord :=
  getCommentsResolvedAux fetch top_level_only lim post_ids []

/-
save_data (src/app/main.py lines 156-169).  `DataFrame.to_csv(...,
index=False)` writes a header row followed by one comma-separated line
per record; a cell containing the separator, the quote character or a
line break is quoted, with embedded quote characters doubled
(QUOTE_MINIMAL).  The writes are modelled as a list of
(filename, content) pairs.
-/

/-- The cell must be quoted: it contains a separator, a quote or a line
break. -/
def needsQuote (s : String) : Bool :=
  s.data.any fun c => c = ',' || c = '"' || c = '\n' || c = '\r'

/-- Double every embedded quote character. -/
def escapeQuotes : List Char → List Char
  | [] => []
  | '"' :: rest => '"' :: '"' :: escapeQuotes rest
  | c :: rest => c :: escapeQuotes rest

/-- Render one cell, quoting it when needed. -/
def encodeCell (s : String) : List Char :=
  if needsQuote s then '"' :: (escapeQuotes s.data ++ ['"']) else s.data

/-- Render one row: cells joined by the separator. -/
def encodeRowChars : List String → List Char
  | [] => []
  | [s] => encodeCell s
  | s :: rest => encodeCell s ++ ',' :: encodeRowChars rest

/-- Render the table: one line per row, each ended by a line break. -/
def encodeTableChars : List (List String) → List Char
  | [] => []
  | r :: rest => encodeRowChars r ++ '\n' :: encodeTableChars rest

def encodeTable (rows : List (List String)) : String :=
  String.mk (encodeTableChars rows)

/-
CSV reader, as a pair of character-level state machines: one for
reading inside a quoted cell, one for reading outside quotes.
Arguments: input, current cell (reversed), current row (reversed),
finished rows (reversed).
-/
mutual

/-- In-quotes mode of the CSV reader. -/
def csvQuoted : List Char → List Char → List String → List (List String) →
    List (List String)
  | [], cell, row, rows =>
    (((String.mk cell.reverse :: row).reverse) :: rows).reverse
  | '"' :: '"' :: rest, cell, row, rows => csvQuoted rest ('"' :: cell) row rows
  | '"' :: rest, cell, row, rows => csvPlain rest cell row rows
  | c :: rest, cell, row, rows => csvQuoted rest (c :: cell) row rows

/-- Out-of-quotes mode of the CSV reader. -/
def csvPlain : List Char → List Char → List String → List (List String) →
    List (List String)
  | [], cell, row, rows =>
    if cell = [] && row = [] then rows.reverse
    else (((String.mk cell.reverse :: row).reverse) :: rows).reverse
  | c :: rest, cell, row, rows =>
    if c = ',' then csvPlain rest [] (String.mk cell.reverse :: row) rows
    else if c = '\n' then
      csvPlain rest [] [] (((String.mk cell.reverse :: row).reverse) :: rows)
    else if c = '"' && cell = [] then csvQuoted rest cell row rows
    else csvPlain rest (c :: cell) row rows

end

/-- Read a CSV text back into rows of cells. -/
def parseCsv (s : String) : List (List String) :=
  csvPlain s.data [] [] []

/-- The header row of the posts file (the dict keys, lines 73-88). -/
def postsHeader : List String :=
  ["subreddit", "search_keyword", "post_id", "title", "author",
   "created_utc", "score", "upvote_ratio", "num_comments", "url",
   "selftext", "link_flair_text", "is_self", "permalink"]

/-- Render an optional cell: pandas writes a missing value (None) as an
empty cell. -/
def optCell (o : Option String) : String :=
  match o with
  | none => ""
  | some s => s

/-- One data row of the posts file, cells in header order.  Numeric and
boolean cells are carried as their rendered text. -/
def postToRow (r : PostRecord) : List String :=
  [r.subreddit, r.search_keyword, r.post_id, r.title, r.author,
   toString r.created_utc, toString r.score, r.upvote_frac,
   toString r.num_comments, r.url, r.selftext, optCell r.link_flair_text,
   toString r.is_self, r.permalink]

/-- The posts table as rows of cells: header plus one row per record. -/
def postsRows (tbl : List PostRecord) : List (List String) :=
  postsHeader :: tbl.map postToRow

/-- `posts_df.to_csv(posts_filename, index=False)` content (line 161). -/
def postsCsv (tbl : List PostRecord) : String :=
  encodeTable (postsRows tbl)

/-- The header row of the comments file (the dict keys, lines 136-145). -/
def commentsHeader : List String :=
  ["post_id", "comment_id", "author", "body", "score", "created_utc",
   "is_submitter", "permalink"]

/-- One data row of the comments file, cells in header order. -/
def commentToRow (r : CommentRecord) : List String :=
  [r.post_id, r.comment_id, r.author, r.body, toString r.score,
   toString r.created_utc, toString r.is_submitter, r.permalink]

/-- `comments_df.to_csv(...)` content (line 166). -/
def commentsCsv (tbl : List CommentRecord) : String :=
  encodeTable (commentsHeader :: tbl.map commentToRow)

/-- The moment of export, to second resolution. -/
structure DateTime where
  year : Nat
  month : Nat
  day : Nat
  hour : Nat
  minute : Nat
  second : Nat
  deriving DecidableEq

/-- Two-digit zero-padded decimal rendering, as strftime emits for
%m %d %H %M %S on the in-range fields of a datetime. -/
def pad2 (n : Nat) : List Char :=
  [Nat.digitChar (n / 10 % 10), Nat.digitChar (n % 10)]

/-- Four-digit zero-padded decimal rendering, as strftime emits for %Y
on a datetime year (1 ≤ year ≤ 9999). -/
def pad4 (n : Nat) : List Char :=
  [Nat.digitChar (n / 1000 % 10), Nat.digitChar (n / 100 % 10),
   Nat.digitChar (n / 10 % 10), Nat.digitChar (n % 10)]

/-- `datetime.now().strftime('%Y%m%d_%H%M%S')` (line 158). -/
def strftimeStamp (t : DateTime) : String :=
  String.mk (pad4 t.year ++ pad2 t.month ++ pad2 t.day ++ '_' ::
    (pad2 t.hour ++ pad2 t.minute ++ pad2 t.second))

/-- `save_data` (lines 156-169): write the posts file always, the
comments file only when a comments table was passed and is non-empty,
and return the posts filename.  Writes are modelled as the list of
(filename, content) pairs, in write order. -/
def save_data (posts_df : List PostRecord)
    (comments_df : Option (List CommentRecord)) (outPfx : String)
    (now : DateTime) : List (String × String) × String :=
  let timestamp := strftimeStamp now
  let posts_filename := outPfx ++ "_posts_" ++ timestamp ++ ".csv"
  let writes := [(posts_filename, postsCsv posts_df)]
  let writes :=
    match comments_df with
    | some cs =>
      if cs.length > 0 then
        writes ++ [(outPfx ++ "_comments_" ++ timestamp ++ ".csv", commentsCsv cs)]
      else writes
    | none => writes
  (writes, posts_filename)

/-
RedditDataCollector.__init__ (src/app/main.py lines 13-19).
-/

/-- The praw.Reddit session as far as its construction arguments go. -/
structure RedditSession where
  client_id : Option String
  client_secret : Option String
  user_agent : String
  deriving DecidableEq

/-- `__init__` (lines 13-19): the three constructor parameters are
accepted but never read; the session is built from the environment
variables alone, with the literal default for the user agent. -/
def collectorInit (client_id client_secret user_agent : Option String)
    (env : String → Option String) : RedditSession :=
  { client_id := env ("REDDIT_CLIENT_ID")
    client_secret := env ("REDDIT_CLIENT_SECRET")
    user_agent :=
      match env ("REDDIT_USER_AGENT") with
      | none => "reddit-docker-app"
      | some v => v }

/-
Lemmas about search_posts.
-/

theorem dedupAux_subset {seen : List String} {l : List PostRecord}
    {x : PostRecord} (h : x ∈ dedupAux seen l) : x ∈ l := by
  induction l generalizing seen with
  | nil => simpa [dedupAux] using h
  | cons r rest ih =>
    by_cases hr : r.post_id ∈ seen
    · simp only [dedupAux, if_pos hr] at h
      exact List.mem_cons_of_mem _ (ih h)
    · simp only [dedupAux, if_neg hr, List.mem_cons] at h
      rcases h with h | h
      · exact h ▸ List.mem_cons_self _ _
      · exact List.mem_cons_of_mem _ (ih h)

theorem dedupAux_not_seen {seen : List String} {l : List PostRecord}
    {x : PostRecord} (h : x ∈ dedupAux seen l) : x.post_id ∉ seen := by
  induction l generalizing seen with
  | nil => simp [dedupAux] at h
  | cons r rest ih =>
    by_cases hr : r.post_id ∈ seen
    · simp only [dedupAux, if_pos hr] at h
      exact ih h
    · simp only [dedupAux, if_neg hr, List.mem_cons] at h
      rcases h with h | h
      · exact h ▸ hr
      · have := ih h
        intro hx
        exact this (List.mem_cons_of_mem _ hx)

theorem dedupAux_pairwise (seen : List String) (l : List PostRecord) :
    (dedupAux seen l).Pairwise (fun a b => a.post_id ≠ b.post_id) := by
  induction l generalizing seen with
  | nil => simp [dedupAux]
  | cons r rest ih =>
    by_cases hr : r.post_id ∈ seen
    · simpa [dedupAux, if_pos hr] using ih seen
    · simp only [dedupAux, if_neg hr]
      refine List.Pairwise.cons ?_ (ih (r.post_id :: seen))
      intro b hb hbr
      have := dedupAux_not_seen hb
      exact this (hbr ▸ List.mem_cons_self _ _)

theorem dedupAux_find? {seen : List String} {l : List PostRecord}
    {x : PostRecord} (h : x ∈ dedupAux seen l) :
    l.find? (fun y => y.post_id == x.post_id) = some x := by
  induction l generalizing seen with
  | nil => simp [dedupAux] at h
  | cons r rest ih =>
    by_cases hr : r.post_id ∈ seen
    · simp only [dedupAux, if_pos hr] at h
      have hx := dedupAux_not_seen h
      have hne : (r.post_id == x.post_id) = false := by
        simp only [beq_eq_false_iff_ne, ne_eq]
        intro he
        exact hx (he ▸ hr)
      simp only [List.find?, hne]
      exact ih h
    · simp only [dedupAux, if_neg hr, List.mem_cons] at h
      rcases h with h | h
      · subst h
        simp [List.find?]
      · have hx := dedupAux_not_seen h
        have hne : (r.post_id == x.post_id) = false := by
          simp only [beq_eq_false_iff_ne, ne_eq]
          intro he
          exact hx (he ▸ List.mem_cons_self _ _)
        simp only [List.find?, hne]
        exact ih h

theorem dedupAux_cover {l : List PostRecord} {x : PostRecord}
    (seen : List String) (h : x ∈ l) :
    x.post_id ∈ seen ∨ ∃ y ∈ dedupAux seen l, y.post_id = x.post_id := by
  induction l generalizing seen with
  | nil => simp at h
  | cons r rest ih =>
    rcases List.mem_cons.mp h with h | h
    · subst h
      by_cases hr : x.post_id ∈ seen
      · exact Or.inl hr
      · exact Or.inr ⟨x, by simp [dedupAux, if_neg hr], rfl⟩
    · by_cases hr : r.post_id ∈ seen
      · rcases ih seen h with hs | ⟨y, hy, hyx⟩
        · exact Or.inl hs
        · exact Or.inr ⟨y, by simpa [dedupAux, if_pos hr] using hy, hyx⟩
      · rcases ih (r.post_id :: seen) h with hs | ⟨y, hy, hyx⟩
        · rcases List.mem_cons.mp hs with hs | hs
          · exact Or.inr ⟨r, by simp [dedupAux, if_neg hr], hs.symm⟩
          · exact Or.inl hs
        · exact Or.inr ⟨y, by simp [dedupAux, if_neg hr, List.mem_cons, hy], hyx⟩

theorem collectKw_eq_filter (start_date end_date : Option Int) (sub kw : String)
    (l : List Submission) :
    collectKw start_date end_date sub kw l =
      (l.filter fun s => inWindow start_date end_date s.created_utc).map
        (toRecord sub kw) := by
  induction l with
  | nil => simp [collectKw]
  | cons s rest ih =>
    by_cases h1 : skipByStart start_date s.created_utc
    · simp [collectKw, h1, inWindow, List.filter, ih]
    · by_cases h2 : skipByEnd end_date s.created_utc
      · simp [collectKw, h1, h2, inWindow, List.filter, ih]
      · simp [collectKw, h1, h2, inWindow, List.filter, ih]

theorem collectKw_window {start_date end_date : Option Int} {sub kw : String}
    {l : List Submission} {r : PostRecord}
    (h : r ∈ collectKw start_date end_date sub kw l) :
    inWindow start_date end_date r.created_utc = true := by
  rw [collectKw_eq_filter] at h
  rcases List.mem_map.mp h with ⟨s, hs, hr⟩
  have := List.of_mem_filter hs
  subst hr
  simpa [toRecord] using this

theorem collectSub_mem {env : SearchEnv} {start_date end_date : Option Int}
    {sub : String} {kws : List String} {acc : List PostRecord} {r : PostRecord}
    (h : r ∈ collectSub env start_date end_date sub kws acc) :
    r ∈ acc ∨ ∃ kw l, env sub kw = .ok l ∧
      r ∈ collectKw start_date end_date sub kw l := by
  induction kws generalizing acc with
  | nil => exact Or.inl h
  | cons kw rest ih =>
    simp only [collectSub] at h
    cases he : env sub kw with
    | error e =>
      rw [he] at h
      exact Or.inl h
    | ok subs =>
      rw [he] at h
      rcases ih h with hacc | hex
      · rcases List.mem_append.mp hacc with hl | hl
        · exact Or.inl hl
        · exact Or.inr ⟨kw, subs, he, hl⟩
      · exact Or.inr hex

theorem allResultsAux_mem {env : SearchEnv} {start_date end_date : Option Int}
    {kws : List String} {subs : List String} {acc : List PostRecord}
    {r : PostRecord}
    (h : r ∈ allResultsAux env start_date end_date kws subs acc) :
    r ∈ acc ∨ ∃ sub kw l, env sub kw = .ok l ∧
      r ∈ collectKw start_date end_date sub kw l := by
  induction subs generalizing acc with
  | nil => exact Or.inl h
  | cons sub rest ih =>
    simp only [allResultsAux] at h
    rcases ih h with hacc | hex
    · rcases collectSub_mem hacc with hl | ⟨kw, l, he, hr⟩
      · exact Or.inl hl
      · exact Or.inr ⟨sub, kw, l, he, hr⟩
    · exact Or.inr hex

theorem allResults_window {env : SearchEnv} {start_date end_date : Option Int}
    {subs kws : List String} {r : PostRecord}
    (h : r ∈ allResults env start_date end_date subs kws) :
    inWindow start_date end_date r.created_utc = true := by
  rcases allResultsAux_mem h with hacc | ⟨_, _, _, _, hr⟩
  · simp at hacc
  · exact collectKw_window hr

theorem inWindow_iff (start_date end_date : Option Int) (t : Int) :
    inWindow start_date end_date t = true ↔
      (∀ v, start_date = some v → v ≤ t) ∧
      (∀ v, end_date = some v → t ≤ v) := by
  cases start_date <;> cases end_date <;>
    simp [inWindow, skipByStart, skipByEnd] <;> omega

theorem collectSub_acc (env : SearchEnv) (start_date end_date : Option Int)
    (sub : String) (kws : List String) (acc : List PostRecord) :
    collectSub env start_date end_date sub kws acc =
      acc ++ collectSub env start_date end_date sub kws [] := by
  induction kws generalizing acc with
  | nil => simp [collectSub]
  | cons kw rest ih =>
    cases he : env sub kw with
    | error e => simp [collectSub, he]
    | ok subs =>
      simp only [collectSub, he, List.nil_append]
      rw [ih (acc ++ collectKw start_date end_date sub kw subs),
        ih (collectKw start_date end_date sub kw subs)]
      simp [List.append_assoc]

theorem allResultsAux_acc (env : SearchEnv) (start_date end_date : Option Int)
    (kws subs : List String) (acc : List PostRecord) :
    allResultsAux env start_date end_date kws subs acc =
      acc ++ allResultsAux env start_date end_date kws subs [] := by
  induction subs generalizing acc with
  | nil => simp [allResultsAux]
  | cons sub rest ih =>
    simp only [allResultsAux]
    rw [ih (collectSub env start_date end_date sub kws acc),
      ih (collectSub env start_date end_date sub kws []),
      collectSub_acc env start_date end_date sub kws acc]
    simp

theorem allResults_join (env : SearchEnv) (start_date end_date : Option Int)
    (subs kws : List String) :
    allResults env start_date end_date subs kws =
      (subs.map (perSub env start_date end_date kws)).flatten := by
  induction subs with
  | nil => simp [allResults, allResultsAux]
  | cons sub rest ih =>
    simp only [allResults, allResultsAux, List.map, List.flatten_cons]
    rw [allResultsAux_acc]
    have h2 : allResultsAux env start_date end_date kws rest [] =
        (rest.map (perSub env start_date end_date kws)).flatten := ih
    rw [h2, perSub]

theorem collectSub_error_split (env : SearchEnv)
    (start_date end_date : Option Int) (sub kw : String)
    (he : env sub kw = .error ()) (kws₁ kws₂ : List String)
    (acc : List PostRecord) :
    collectSub env start_date end_date sub (kws₁ ++ kw :: kws₂) acc =
      collectSub env start_date end_date sub kws₁ acc := by
  induction kws₁ generalizing acc with
  | nil => simp [collectSub, he]
  | cons k rest ih =>
    simp only [List.cons_append, collectSub]
    cases env sub k with
    | error e => rfl
    | ok subs => exact ih _

/-
Lemmas about get_comments.
-/

/-- The rows one post's visible genuine comments produce. -/
def postRecs (pid : String) (cs : List CTree) : List CommentRecord :=
  cs.filterMap fun t =>
    match t with
    | CTree.comment c _ => some (commentRecord pid c)
    | CTree.more _ => none

/-- The comment collection read for one post after the placeholder
removal: top-level nodes or the flattened view (lines 129-132). -/
def viewOf (top_level_only : Bool) (forest : List CTree) : List CTree :=
  if top_level_only then replaceMoreZeroF forest
  else flattenForest (replaceMoreZeroF forest)

/-- One post's contribution to the comments table in a run without a
cap. -/
def perPost (fetch : FetchEnv) (top_level_only : Bool) (pid : String) :
    List CommentRecord :=
  match fetch pid with
  | .error _ => []
  | .ok f => postRecs pid (viewOf top_level_only f)

theorem processComments_none (pid : String) (cs : List CTree)
    (acc : List CommentRecord) :
    processComments none pid acc cs = acc ++ postRecs pid cs := by
  induction cs generalizing acc with
  | nil => simp [processComments, postRecs]
  | cons t rest ih =>
    cases t with
    | comment c kids =>
      simp only [processComments, capHit, Bool.false_eq_true, if_neg,
        Bool.not_eq_true]
      rw [ih]
      simp [postRecs]
    | more h => simp [processComments, postRecs, ih]

theorem getCommentsAux_none_join (fetch : FetchEnv) (top_level_only : Bool)
    (ids : List String) (acc : List CommentRecord) :
    getCommentsAux fetch top_level_only none ids acc =
      acc ++ (ids.map (perPost fetch top_level_only)).flatten := by
  induction ids generalizing acc with
  | nil => simp [getCommentsAux]
  | cons pid rest ih =>
    cases hf : fetch pid with
    | error e => simp [getCommentsAux, ih, perPost, hf]
    | ok f =>
      simp only [getCommentsAux, hf]
      rw [ih, processComments_none]
      simp [perPost, hf, viewOf, List.append_assoc]

theorem processComments_post_id {lim : Option Nat} {pid : String}
    {cs : List CTree} {acc : List CommentRecord} {r : CommentRecord}
    (h : r ∈ processComments lim pid acc cs) :
    r ∈ acc ∨ r.post_id = pid := by
  induction cs generalizing acc with
  | nil => exact Or.inl h
  | cons t rest ih =>
    cases t with
    | comment c kids =>
      simp only [processComments] at h
      by_cases hc : capHit lim (acc ++ [commentRecord pid c]).length
      · rw [if_pos hc] at h
        rcases List.mem_append.mp h with hl | hl
        · exact Or.inl hl
        · simp at hl
          exact Or.inr (hl ▸ rfl)
      · rw [if_neg hc] at h
        rcases ih h with hl | hl
        · rcases List.mem_append.mp hl with hl₂ | hl₂
          · exact Or.inl hl₂
          · simp at hl₂
            exact Or.inr (hl₂ ▸ rfl)
        · exact Or.inr hl
    | more hd => exact ih h

theorem getCommentsAux_ne {fetch : FetchEnv} {top_level_only : Bool}
    {lim : Option Nat} {ids : List String} {acc : List CommentRecord}
    {p : String} (hp : fetch p = .error ()) {r : CommentRecord}
    (h : r ∈ getCommentsAux fetch top_level_only lim ids acc) :
    r ∈ acc ∨ r.post_id ≠ p := by
  induction ids generalizing acc with
  | nil => exact Or.inl h
  | cons pid rest ih =>
    simp only [getCommentsAux] at h
    cases hf : fetch pid with
    | error e =>
      rw [hf] at h
      exact ih h
    | ok f =>
      rw [hf] at h
      rcases ih h with hl | hl
      · rcases processComments_post_id hl with hl₂ | hl₂
        · exact Or.inl hl₂
        · refine Or.inr ?_
          rw [hl₂]
          intro he
          rw [he, hp] at hf
          exact Except.noConfusion hf
      · exact Or.inr hl

theorem processComments_le (lim : Option Nat) (pid : String)
    (cs : List CTree) (acc : List CommentRecord) :
    acc.length ≤ (processComments lim pid acc cs).length := by
  induction cs generalizing acc with
  | nil => simp [processComments]
  | cons t rest ih =>
    cases t with
    | comment c kids =>
      simp only [processComments]
      by_cases hc : capHit lim (acc ++ [commentRecord pid c]).length
      · rw [if_pos hc]
        simp
      · rw [if_neg hc]
        have := ih (acc ++ [commentRecord pid c])
        simp at this
        omega
    | more hd => exact ih acc

theorem processComments_cap {C : Nat} (hC : 1 ≤ C) (pid : String)
    (cs : List CTree) (acc : List CommentRecord) :
    (processComments (some C) pid acc cs).length ≤
      if acc.length < C then C else acc.length + 1 := by
  induction cs generalizing acc with
  | nil =>
    simp only [processComments]
    split <;> omega
  | cons t rest ih =>
    cases t with
    | comment c kids =>
      simp only [processComments]
      by_cases hc : capHit (some C) (acc ++ [commentRecord pid c]).length
      · rw [if_pos hc]
        simp only [capHit, Bool.and_eq_true, decide_eq_true_eq] at hc
        simp only [List.length_append, List.length_cons, List.length_nil]
        split <;> omega
      · rw [if_neg hc]
        simp only [capHit, Bool.and_eq_true, decide_eq_true_eq, not_and,
          not_le] at hc
        have hlt : (acc ++ [commentRecord pid c]).length < C := by
          have := hc (by omega)
          exact this
        have := ih (acc ++ [commentRecord pid c])
        rw [if_pos hlt] at this
        simp only [List.length_append, List.length_cons, List.length_nil] at hlt
        split <;> omega
    | more hd => exact ih acc

theorem getCommentsAux_cap_ge {C : Nat} (hC : 1 ≤ C) (fetch : FetchEnv)
    (top_level_only : Bool) (ids : List String) (acc : List CommentRecord)
    (hacc : C ≤ acc.length) :
    (getCommentsAux fetch top_level_only (some C) ids acc).length ≤
      acc.length + ids.length := by
  induction ids generalizing acc with
  | nil => simp [getCommentsAux]
  | cons pid rest ih =>
    cases hf : fetch pid with
    | error e =>
      simp only [getCommentsAux, hf]
      have := ih acc hacc
      simp only [List.length_cons]
      omega
    | ok f =>
      simp only [getCommentsAux, hf]
      set cs := if top_level_only then replaceMoreZeroF f
        else flattenForest (replaceMoreZeroF f) with hcs
      have h1 := processComments_cap hC pid cs acc
      rw [if_neg (by omega)] at h1
      have h2 := processComments_le (some C) pid cs acc
      have := ih (processComments (some C) pid acc cs) (by omega)
      simp only [List.length_cons]
      omega

theorem getCommentsAux_cap_lt {C : Nat} (hC : 1 ≤ C) (fetch : FetchEnv)
    (top_level_only : Bool) (ids : List String) (acc : List CommentRecord)
    (hacc : acc.length < C) :
    (getCommentsAux fetch top_level_only (some C) ids acc).length ≤
      C + ids.length - 1 := by
  induction ids generalizing acc with
  | nil =>
    simp only [getCommentsAux, List.length_nil]
    omega
  | cons pid rest ih =>
    cases hf : fetch pid with
    | error e =>
      simp only [getCommentsAux, hf]
      have := ih acc hacc
      simp only [List.length_cons]
      omega
    | ok f =>
      simp only [getCommentsAux, hf]
      set cs := if top_level_only then replaceMoreZeroF f
        else flattenForest (replaceMoreZeroF f) with hcs
      have h1 := processComments_cap hC pid cs acc
      rw [if_pos hacc] at h1
      by_cases h2 : (processComments (some C) pid acc cs).length < C
      · have := ih (processComments (some C) pid acc cs) h2
        simp only [List.length_cons]
        omega
      · have := getCommentsAux_cap_ge hC fetch top_level_only rest
          (processComments (some C) pid acc cs) (by omega)
        simp only [List.length_cons]
        omega

/-
Lemmas about the placeholder handling of line 127.
-/

theorem genuineData_nil : genuineData [] = [] := by
  simp [genuineData, flattenForest]

theorem genuineData_comment (c : CommentObj) (kids rest : List CTree) :
    genuineData (CTree.comment c kids :: rest) =
      c :: (genuineData kids ++ genuineData rest) := by
  simp [genuineData, flattenForest, List.filterMap_append]

theorem genuineData_more (h rest : List CTree) :
    genuineData (CTree.more h :: rest) = genuineData rest := by
  simp [genuineData, flattenForest]

theorem replaceMoreZeroF_removes (f : List CTree) :
    noMoreNodes (replaceMoreZeroF f) = true ∧
      genuineData (replaceMoreZeroF f) = genuineData f := by
  induction f using replaceMoreZeroF.induct with
  | case1 => simp [replaceMoreZeroF, noMoreNodes, genuineData_nil]
  | case2 c kids rest ihk ihr =>
    simp only [replaceMoreZeroF, noMoreNodes, genuineData_comment,
      Bool.and_eq_true]
    exact ⟨⟨ihk.1, ihr.1⟩, by rw [ihk.2, ihr.2]⟩
  | case3 h rest ihr =>
    simp only [replaceMoreZeroF, genuineData_more]
    exact ihr

/-
Round-trip lemmas for the CSV writer/reader.
-/

theorem escapeQuotes_char {c : Char} (hc : c ≠ '"') (t : List Char) :
    escapeQuotes (c :: t) = c :: escapeQuotes t := by
  rw [escapeQuotes.eq_def]
  split <;> simp_all

theorem string_mk_data (s : String) : String.mk s.data = s := rfl

theorem csvQuoted_end {c : Char} (hc : c ≠ '"') (rest cell : List Char)
    (row : List String) (rows : List (List String)) :
    csvQuoted ('"' :: c :: rest) cell row rows =
      csvPlain (c :: rest) cell row rows := by
  rw [csvQuoted.eq_def]
  split <;> try simp_all
  rename_i hne heq
  exact absurd heq.1.symm hne

theorem csvQuoted_char {c : Char} (hc : c ≠ '"') (rest cell : List Char)
    (row : List String) (rows : List (List String)) :
    csvQuoted (c :: rest) cell row rows =
      csvQuoted rest (c :: cell) row rows := by
  rw [csvQuoted.eq_def]
  split <;> simp_all

theorem csvPlain_char {c : Char} (h1 : c ≠ ',') (h2 : c ≠ '\n')
    (h3 : c ≠ '"') (rest cell : List Char) (row : List String)
    (rows : List (List String)) :
    csvPlain (c :: rest) cell row rows =
      csvPlain rest (c :: cell) row rows := by
  rw [csvPlain.eq_def]
  simp [h1, h2, h3]

/-- The continuation after a cell can legitimately start: at the end of
the input, or at a character other than a quote. -/
def CellStop (rest : List Char) : Prop :=
  rest = [] ∨ ∃ c rs, rest = c :: rs ∧ c ≠ '"'

theorem csvQuoted_run (l : List Char) {rest : List Char}
    (hrest : CellStop rest) (cell : List Char) (row : List String)
    (rows : List (List String)) :
    csvQuoted (escapeQuotes l ++ '"' :: rest) cell row rows =
      csvPlain rest (l.reverse ++ cell) row rows := by
  induction l generalizing cell with
  | nil =>
    simp only [escapeQuotes, List.nil_append, List.reverse_nil]
    rcases hrest with h | ⟨c, rs, hr, hc⟩
    · subst h
      rfl
    · subst hr
      exact csvQuoted_end hc rs cell row rows
  | cons c t ih =>
    by_cases hc : c = '"'
    · subst hc
      simp only [escapeQuotes, List.cons_append]
      have h1 : csvQuoted ('"' :: '"' :: (escapeQuotes t ++ '"' :: rest)) cell
          row rows =
          csvQuoted (escapeQuotes t ++ '"' :: rest) ('"' :: cell) row rows := rfl
      rw [h1, ih ('"' :: cell)]
      simp
    · rw [escapeQuotes_char hc, List.cons_append, csvQuoted_char hc,
        ih (c :: cell)]
      simp

theorem csvPlain_run (l : List Char)
    (hl : ∀ c ∈ l, c ≠ ',' ∧ c ≠ '\n' ∧ c ≠ '"') (rest cell : List Char)
    (row : List String) (rows : List (List String)) :
    csvPlain (l ++ rest) cell row rows =
      csvPlain rest (l.reverse ++ cell) row rows := by
  induction l generalizing cell with
  | nil => simp
  | cons c t ih =>
    have hc := hl c (List.mem_cons_self _ _)
    rw [List.cons_append, csvPlain_char hc.1 hc.2.1 hc.2.2,
      ih (fun x hx => hl x (List.mem_cons_of_mem _ hx)) (c :: cell)]
    simp

theorem csvPlain_cell (s : String) {rest : List Char}
    (hrest : CellStop rest) (row : List String) (rows : List (List String)) :
    csvPlain (encodeCell s ++ rest) [] row rows =
      csvPlain rest s.data.reverse row rows := by
  by_cases hq : needsQuote s
  · simp only [encodeCell, if_pos hq, List.cons_append, List.append_assoc,
      List.singleton_append, List.nil_append]
    have hopen : csvPlain ('"' :: (escapeQuotes s.data ++ '"' :: rest)) []
        row rows = csvQuoted (escapeQuotes s.data ++ '"' :: rest) [] row rows :=
      rfl
    rw [hopen, csvQuoted_run s.data hrest [] row rows]
    simp
  · simp only [encodeCell, if_neg hq]
    have hl : ∀ c ∈ s.data, c ≠ ',' ∧ c ≠ '\n' ∧ c ≠ '"' := by
      intro c hcm
      simp only [needsQuote, List.any_eq_true, not_exists, not_or,
        Bool.or_eq_true, decide_eq_true_eq] at hq
      push_neg at hq
      have := hq c hcm
      tauto
    rw [csvPlain_run s.data hl rest [] row rows]
    simp

theorem csvPlain_comma (rest cell : List Char) (row : List String)
    (rows : List (List String)) :
    csvPlain (',' :: rest) cell row rows =
      csvPlain rest [] (String.mk cell.reverse :: row) rows := rfl

theorem csvPlain_newline (rest cell : List Char) (row : List String)
    (rows : List (List String)) :
    csvPlain ('\n' :: rest) cell row rows =
      csvPlain rest [] [] (((String.mk cell.reverse :: row).reverse) :: rows) :=
  rfl

theorem csvPlain_row (r : List String) (hr : r ≠ []) (rest : List Char)
    (row : List String) (rows : List (List String)) :
    csvPlain (encodeRowChars r ++ '\n' :: rest) [] row rows =
      csvPlain rest [] [] ((row.reverse ++ r) :: rows) := by
  induction r generalizing row with
  | nil => exact absurd rfl hr
  | cons s t ih =>
    cases t with
    | nil =>
      simp only [encodeRowChars]
      rw [csvPlain_cell s (Or.inr ⟨'\n', rest, rfl, by decide⟩) row rows,
        csvPlain_newline]
      simp [string_mk_data]
    | cons s₂ t₂ =>
      simp only [encodeRowChars, List.append_assoc, List.cons_append]
      rw [csvPlain_cell s (Or.inr ⟨',', encodeRowChars (s₂ :: t₂) ++
          '\n' :: rest, rfl, by decide⟩) row rows,
        csvPlain_comma]
      rw [ih (by simp) (String.mk s.data.reverse.reverse :: row)]
      simp [string_mk_data]

theorem csvPlain_table (tbls : List (List String))
    (h : ∀ r ∈ tbls, r ≠ []) (rows : List (List String)) :
    csvPlain (encodeTableChars tbls) [] [] rows = rows.reverse ++ tbls := by
  induction tbls generalizing rows with
  | nil => simp [encodeTableChars, csvPlain]
  | cons r t ih =>
    simp only [encodeTableChars]
    rw [csvPlain_row r (h r (List.mem_cons_self _ _)) (encodeTableChars t)
      [] rows]
    rw [ih (fun x hx => h x (List.mem_cons_of_mem _ hx)) (([].reverse ++ r) :: rows)]
    simp

theorem parseCsv_encodeTable (tbls : List (List String))
    (h : ∀ r ∈ tbls, r ≠ []) : parseCsv (encodeTable tbls) = tbls := by
  have : (encodeTable tbls).data = encodeTableChars tbls := rfl
  rw [parseCsv, this, csvPlain_table tbls h []]
  simp

/-
Concrete sample data and environments for the scenario checks.
-/

/-- A sample submission, id P. -/
def subP : Submission :=
  { id := "P", title := "t", author := "a", created_utc := 3, score := 1,
    upvote_frac := "0.9", num_comments := 2, url := "u", selftext := "s",
    link_flair_text := none, is_self := true, permalink := "/p" }

/-- A sample comment object, id c1. -/
def cObj : CommentObj :=
  { id := "c1", author := "a", body := "b", score := 1, created_utc := 5,
    is_submitter := false, permalink := "/c" }

/-- Fetch environment: posts p1 and p2 each carry one genuine comment. -/
def envC1 : FetchEnv := fun p =>
  if p = "p1" || p = "p2" then .ok [CTree.comment cObj []] else .error ()

/-- Search environment: every keyword search in community alpha returns
post P; any other community raises. -/
def envC2 : SearchEnv := fun s _ =>
  if s = "alpha" then .ok [subP] else .error ()

/-- Fetch environment: post ph has one comment hidden behind a "load
more comments" placeholder. -/
def envC4 : FetchEnv := fun p =>
  if p = "ph" then .ok [CTree.more [CTree.comment cObj []]] else .error ()

/-- Search environment: the search (s1, k1) returns post P, the search
(s1, k2) raises. -/
def envC5S : SearchEnv := fun s k =>
  if s = "s1" && k = "k1" then .ok [subP] else .error ()

/-- Fetch environment that always raises. -/
def envErrF : FetchEnv := fun _ => .error ()

/-- Search environment that always raises. -/
def envErrS : SearchEnv := fun _ _ => .error ()

/-- Search environment: the search (alpha, x) returns post P, the
search (alpha, y) raises. -/
def envC6 : SearchEnv := fun s k =>
  if s = "alpha" && k = "x" then .ok [subP] else .error ()

/-- Fetch environment: post bad raises, every other post has one
genuine comment. -/
def envC7 : FetchEnv := fun p =>
  if p = "bad" then .error () else .ok [CTree.comment cObj []]

/-- Extract the comment object of a genuine comment node. -/
def genuineOf : CTree → Option CommentObj
  | CTree.comment c _ => some c
  | CTree.more _ => none

theorem postRecs_eq (pid : String) (l : List CTree) :
    postRecs pid l = (l.filterMap genuineOf).map (commentRecord pid) := by
  induction l with
  | nil => simp [postRecs]
  | cons t rest ih =>
    cases t with
    | comment c kids =>
      simp only [postRecs, List.filterMap_cons, genuineOf] at *
      simp [ih]
    | more h =>
      simp only [postRecs, List.filterMap_cons, genuineOf] at *
      simp [ih]

theorem genuineData_eq_filterMap (f : List CTree) :
    genuineData f = (flattenForest f).filterMap genuineOf := by
  rw [genuineData]
  apply List.filterMap_congr
  intro t _
  cases t <;> simp [genuineOf]

theorem digitChar_mod_isDigit (n : Nat) :
    (Nat.digitChar (n % 10)).isDigit = true := by
  have h : n % 10 < 10 := Nat.mod_lt _ (by omega)
  revert h
  generalize n % 10 = k
  intro h
  interval_cases k <;> decide

/-
Claim theorems.
-/

/-- C1 (counterexample): with the global cap set to 1 and two posts of
one comment each, get_comments returns 2 comment records — more than
the cap — and the second post is still processed after the cap was
reached, because the `break` of line 148 exits only the inner comment
loop.  This refutes both halves of the claim. -/
theorem c1_counterexample :
    (get_comments envC1 ["p1", "p2"] true (some 1)).length = 2 ∧
    (get_comments envC1 ["p1", "p2"] true (some 1)).map (fun r => r.post_id) =
      ["p1", "p2"] := by
  constructor <;>
    simp [get_comments, getCommentsAux, envC1, replaceMoreZeroF,
      processComments, capHit, commentRecord]

/-- C1 (amended): with a cap C ≥ 1 set, once the running total reaches
C the current post's comment loop stops, but later posts are still
processed and each can append one more comment before its own inner
break; the total is therefore bounded by C plus the number of posts
minus one, not by C. -/
theorem c1_cap_bound (fetch : FetchEnv) (top_level_only : Bool) (C : Nat)
    (hC : 1 ≤ C) (post_ids : List String) :
    (get_comments fetch post_ids top_level_only (some C)).length ≤
      C + post_ids.length - 1 :=
  getCommentsAux_cap_lt hC fetch top_level_only post_ids []
    (by simp only [List.length_nil]; omega)

/-- C1 (witness): the amended bound applied at cap 1 and two posts. -/
theorem c1_cap_bound_witness :
    1 ≤ 1 ∧ (get_comments envC1 ["p1", "p2"] true (some 1)).length ≤
      1 + (["p1", "p2"] : List String).length - 1 :=
  ⟨by decide, c1_cap_bound envC1 true 1 (by decide) ["p1", "p2"]⟩

/-- C2: the output of search_posts carries pairwise distinct post
identifiers; every output row is the first row of the accumulated
results with its identifier (so it carries the community and keyword
processed first); and no identifier of the accumulated results is
lost. -/
theorem c2_dedup_first_seen (env : SearchEnv) (subs kws : List String)
    (start_date end_date : Option Int) :
    (search_posts env subs kws start_date end_date).Pairwise
      (fun a b => a.post_id ≠ b.post_id) ∧
    (∀ r ∈ search_posts env subs kws start_date end_date,
      (allResults env start_date end_date subs kws).find?
        (fun y => y.post_id == r.post_id) = some r) ∧
    (∀ x ∈ allResults env start_date end_date subs kws,
      ∃ r ∈ search_posts env subs kws start_date end_date,
        r.post_id = x.post_id) := by
  refine ⟨dedupAux_pairwise [] _, ?_, ?_⟩
  · intro r hr
    exact dedupAux_find? hr
  · intro x hx
    rcases dedupAux_cover [] hx with h | h
    · simp at h
    · exact h

/-- C2 (witness): communities [alpha], keywords [x, y], both searches
return post P — the retained row is P tagged with keyword x. -/
theorem c2_dedup_first_seen_witness :
    toRecord ("alpha") ("x") subP ∈
      search_posts envC2 ["alpha"] ["x", "y"] none none ∧
    (allResults envC2 none none ["alpha"] ["x", "y"]).find?
      (fun y => y.post_id == (toRecord ("alpha") ("x") subP).post_id) =
      some (toRecord ("alpha") ("x") subP) := by
  have hm : toRecord ("alpha") ("x") subP ∈
      search_posts envC2 ["alpha"] ["x", "y"] none none := by decide
  exact ⟨hm,
    (c2_dedup_first_seen envC2 ["alpha"] ["x", "y"] none none).2.1 _ hm⟩

/-- C3: every row of the search_posts output lies inside the optional
date window; the per-search collection keeps exactly the submissions
whose timestamp passes the window; and a timestamp equal to either
bound passes the window (both bounds inclusive). -/
theorem c3_date_bounds_inclusive (env : SearchEnv) (subs kws : List String)
    (start_date end_date : Option Int) :
    (∀ r ∈ search_posts env subs kws start_date end_date,
      (∀ v, start_date = some v → v ≤ r.created_utc) ∧
      (∀ v, end_date = some v → r.created_utc ≤ v)) ∧
    (∀ sub kw l, collectKw start_date end_date sub kw l =
      (l.filter fun s => inWindow start_date end_date s.created_utc).map
        (toRecord sub kw)) ∧
    (∀ v w t, v ≤ t → t ≤ w → inWindow (some v) (some w) t = true) := by
  refine ⟨?_, fun sub kw l => collectKw_eq_filter _ _ _ _ _, ?_⟩
  · intro r hr
    have h1 : r ∈ allResults env start_date end_date subs kws :=
      dedupAux_subset hr
    exact (inWindow_iff _ _ _).mp (allResults_window h1)
  · intro v w t h1 h2
    rw [inWindow_iff]
    constructor
    · intro u hu
      cases hu
      exact h1
    · intro u hu
      cases hu
      exact h2

/-- C3 (witness): both bounds of the window [2, 7] are inside the
window. -/
theorem c3_date_bounds_inclusive_witness :
    inWindow (some 2) (some 7) 2 = true ∧
    inWindow (some 2) (some 7) 7 = true :=
  ⟨(c3_date_bounds_inclusive envErrS [] [] (some 2) (some 7)).2.2 2 7 2
      (by decide) (by decide),
   (c3_date_bounds_inclusive envErrS [] [] (some 2) (some 7)).2.2 2 7 7
      (by decide) (by decide)⟩

/-- C4 (counterexample): post ph has one comment hidden behind a "load
more comments" placeholder.  The code (replace_more with limit 0)
collects nothing for ph, while the eager full resolution the claim
describes would collect that comment: the view read does not reflect
the complete resolved tree. -/
theorem c4_counterexample :
    get_comments envC4 ["ph"] false none = [] ∧
    get_comments_resolved envC4 ["ph"] false none =
      [commentRecord ("ph") cObj] := by
  constructor <;>
    simp [get_comments, get_comments_resolved, getCommentsAux,
      getCommentsResolvedAux, envC4, replaceMoreZeroF, resolveMoreAll,
      flattenForest, processComments, capHit]

/-- C4 (amended): replace_more(limit=0) removes every placeholder from
the forest without expanding any of them: no placeholder survives, the
visible genuine comments are kept exactly, and the flattened view read
afterwards yields one row per genuine comment outside any placeholder —
comments hidden behind placeholders are dropped, not resolved. -/
theorem c4_placeholders_removed (f : List CTree) :
    noMoreNodes (replaceMoreZeroF f) = true ∧
    genuineData (replaceMoreZeroF f) = genuineData f ∧
    (∀ pid, postRecs pid (viewOf false f) =
      (genuineData f).map (commentRecord pid)) := by
  obtain ⟨h1, h2⟩ := replaceMoreZeroF_removes f
  refine ⟨h1, h2, ?_⟩
  intro pid
  show postRecs pid (flattenForest (replaceMoreZeroF f)) = _
  rw [postRecs_eq, ← genuineData_eq_filterMap, h2]

/-- C5 (counterexample): the community item s1 raises on its second
keyword search, yet the run's output contains the record collected
under its first keyword — the failing item contributed one record, not
zero, because the per-community `try` catches the exception only after
the earlier appends to the accumulator have happened. -/
theorem c5_counterexample :
    envC5S ("s1") ("k2") = .error () ∧
    (search_posts envC5S ["s1"] ["k1", "k2"] none none).length = 1 := by
  constructor
  · rfl
  · decide

/-- C5 (amended): per-item failures are caught at the item boundary
and never abort the run: a post whose comment fetch raises is skipped
exactly (zero comment records, iteration continues with the rest), and
a community search failure ends that community's keyword loop while
keeping every record accumulated before the failure. -/
theorem c5_item_boundary (fetch : FetchEnv) (top_level_only : Bool)
    (lim : Option Nat) (p : String) (ids : List String)
    (acc : List CommentRecord) (env : SearchEnv)
    (start_date end_date : Option Int) (sub kw : String) (kws : List String)
    (acc₂ : List PostRecord) (hf : fetch p = .error ())
    (hs : env sub kw = .error ()) :
    getCommentsAux fetch top_level_only lim (p :: ids) acc =
      getCommentsAux fetch top_level_only lim ids acc ∧
    collectSub env start_date end_date sub (kw :: kws) acc₂ = acc₂ := by
  constructor
  · simp [getCommentsAux, hf]
  · simp [collectSub, hs]

/-- C5 (witness): the amended statement applied to always-failing
environments, with a non-empty accumulator kept intact. -/
theorem c5_item_boundary_witness :
    getCommentsAux envErrF true none ["p"] [] =
      getCommentsAux envErrF true none [] [] ∧
    collectSub envErrS none none ("s") ["k"]
      [toRecord ("s") ("k") subP] = [toRecord ("s") ("k") subP] :=
  c5_item_boundary envErrF true none ("p") [] [] envErrS none none
    ("s") ("k") [] [toRecord ("s") ("k") subP] rfl rfl

/-- C6 (counterexample): the search for community alpha raises an error
(on keyword y), yet alpha is not skipped entirely: the post found under
its keyword x stays in the output. -/
theorem c6_counterexample :
    envC6 ("alpha") ("y") = .error () ∧
    (search_posts envC6 ["alpha"] ["x", "y"] none none).map
      (fun r => (r.subreddit, r.post_id)) = [("alpha", "P")] := by
  constructor
  · rfl
  · decide

/-- C6 (amended): when a community's search raises at some keyword, the
remaining keywords of that community are skipped while records from its
earlier keywords are kept (a community whose first search fails, such
as a missing community, therefore contributes nothing); and the
accumulated results are the concatenation of independent per-community
contributions, so every other listed community is unaffected. -/
theorem c6_community_error (env : SearchEnv) (start_date end_date : Option Int)
    (sub kw : String) (kws₁ kws₂ subs kws : List String)
    (he : env sub kw = .error ()) :
    perSub env start_date end_date (kws₁ ++ kw :: kws₂) sub =
      perSub env start_date end_date kws₁ sub ∧
    allResults env start_date end_date subs kws =
      (subs.map (perSub env start_date end_date kws)).flatten :=
  ⟨collectSub_error_split env start_date end_date sub kw he kws₁ kws₂ [],
   allResults_join env start_date end_date subs kws⟩

/-- C6 (witness): the amended statement applied to the concrete
environment failing at (alpha, y). -/
theorem c6_community_error_witness :
    perSub envC6 none none (["x"] ++ "y" :: []) ("alpha") =
      perSub envC6 none none ["x"] ("alpha") ∧
    allResults envC6 none none ["alpha"] ["x", "y"] =
      ((["alpha"] : List String).map
        (perSub envC6 none none ["x", "y"])).flatten :=
  c6_community_error envC6 none none ("alpha") ("y") ["x"] [] ["alpha"]
    ["x", "y"] rfl

/-- C7: when the comment fetch of post p raises, the comments table
contains no row for p, for any cap; and in a run without a cap the full
rows of every successfully fetched post after p are all present in the
output. -/
theorem c7_failed_post_skipped (fetch : FetchEnv) (top_level_only : Bool)
    (lim : Option Nat) (p : String) (pre post : List String)
    (hf : fetch p = .error ()) :
    (∀ r ∈ get_comments fetch (pre ++ p :: post) top_level_only lim,
      r.post_id ≠ p) ∧
    (∀ q fq, q ∈ post → fetch q = .ok fq →
      ∀ r ∈ postRecs q (viewOf top_level_only fq),
        r ∈ get_comments fetch (pre ++ p :: post) top_level_only none) := by
  constructor
  · intro r hr
    rcases getCommentsAux_ne hf hr with h | h
    · simp at h
    · exact h
  · intro q fq hq hfq r hr
    rw [get_comments, getCommentsAux_none_join]
    rw [List.nil_append, List.mem_flatten]
    refine ⟨postRecs q (viewOf top_level_only fq), ?_, hr⟩
    rw [List.mem_map]
    exact ⟨q, by simp [hq], by simp [perPost, hfq, viewOf]⟩

/-- C7 (witness): post bad raises; the comment of the later post g2 is
in the output. -/
theorem c7_failed_post_skipped_witness :
    commentRecord ("g2") cObj ∈
      get_comments envC7 (["g1"] ++ "bad" :: ["g2"]) true none := by
  refine (c7_failed_post_skipped envC7 true none ("bad") ["g1"] ["g2"]
    rfl).2 ("g2") [CTree.comment cObj []] (by simp) rfl
    (commentRecord ("g2") cObj) ?_
  simp [postRecs, viewOf, replaceMoreZeroF]

/-- C8: save_data returns the posts filename, built from the prefix,
the fixed posts label and the timestamp; the posts file is always the
first write; the comments file is written exactly when a non-empty
comments table was passed, under the comments label and the same
timestamp; and the timestamp is 15 characters — eight digits, an
underscore, six digits (four-digit year, two-digit month, day, hour,
minute, second). -/
theorem c8_save_data_files (posts : List PostRecord)
    (cs : List CommentRecord) (comments : Option (List CommentRecord))
    (outPfx : String) (now : DateTime) (hcs : cs ≠ []) :
    (save_data posts comments outPfx now).2 =
      outPfx ++ "_posts_" ++ strftimeStamp now ++ ".csv" ∧
    (save_data posts none outPfx now).1.map Prod.fst =
      [outPfx ++ "_posts_" ++ strftimeStamp now ++ ".csv"] ∧
    (save_data posts (some []) outPfx now).1.map Prod.fst =
      [outPfx ++ "_posts_" ++ strftimeStamp now ++ ".csv"] ∧
    (save_data posts (some cs) outPfx now).1.map Prod.fst =
      [outPfx ++ "_posts_" ++ strftimeStamp now ++ ".csv",
       outPfx ++ "_comments_" ++ strftimeStamp now ++ ".csv"] ∧
    (strftimeStamp now).length = 15 ∧
    (strftimeStamp now).data.getD 8 ' ' = '_' ∧
    (∀ i, i < 15 → i ≠ 8 →
      ((strftimeStamp now).data.getD i ' ').isDigit = true) := by
  refine ⟨?_, by simp [save_data], by simp [save_data], ?_, ?_, ?_, ?_⟩
  · cases comments with
    | none => simp [save_data]
    | some l =>
      by_cases hl : l.length > 0 <;> simp [save_data, hl]
  · simp [save_data, List.length_pos.mpr hcs]
  · show (String.mk _).length = 15
    simp [pad4, pad2, String.length]
  · simp [strftimeStamp, pad4, pad2, List.getD]
  · intro i h1 h2
    interval_cases i <;>
      first
        | exact absurd rfl h2
        | (simp only [strftimeStamp, pad4, pad2, List.cons_append,
            List.nil_append, List.getD, List.getElem?_cons_zero,
            List.getElem?_cons_succ, Option.getD_some]
           exact digitChar_mod_isDigit _)

/-- C8 (witness): save_data applied at a concrete moment with one
comment row: both filenames, in order. -/
theorem c8_save_data_files_witness :
    ([commentRecord ("p") cObj] : List CommentRecord) ≠ [] ∧
    (save_data [] (some [commentRecord ("p") cObj]) ("pfx")
      ⟨2026, 10, 12, 3, 4, 59⟩).1.map Prod.fst =
      ["pfx_posts_20261012_030459.csv", "pfx_comments_20261012_030459.csv"] := by
  have h := (c8_save_data_files [] [commentRecord ("p") cObj]
    (some [commentRecord ("p") cObj]) ("pfx") ⟨2026, 10, 12, 3, 4, 59⟩
    (by decide)).2.2.2.1
  refine ⟨by decide, ?_⟩
  rw [h]
  rfl

/-- C9: writing any posts table with save_data's CSV writer and reading
the file back with the CSV reader reproduces the table exactly: the
parsed file is the header row plus one row per record, so the data row
count equals the record count and the post identifier column equals the
identifier list of the original table. -/
theorem c9_csv_roundtrip (tbl : List PostRecord) :
    parseCsv (postsCsv tbl) = postsRows tbl ∧
    (parseCsv (postsCsv tbl)).length = tbl.length + 1 ∧
    ((parseCsv (postsCsv tbl)).drop 1).map (fun row => row.getD 2 "") =
      tbl.map (fun r => r.post_id) := by
  have h : parseCsv (postsCsv tbl) = postsRows tbl := by
    apply parseCsv_encodeTable
    intro r hr
    rcases List.mem_cons.mp hr with h | h
    · subst h
      simp [postsHeader]
    · rcases List.mem_map.mp h with ⟨p, _, hrw⟩
      subst hrw
      simp [postToRow]
  refine ⟨h, ?_, ?_⟩
  · rw [h]
    simp [postsRows]
  · rw [h]
    show (List.map postToRow tbl).map (fun row => row.getD 2 "") = _
    rw [List.map_map]
    rfl

/-- C10: the constructor's three credential parameters are never read —
any two calls with the same environment build the same session — and
the session fields come from the environment variables alone, the user
agent falling back to the documented default when unset. -/
theorem c10_init_env_only (env : String → Option String)
    (a b c a₂ b₂ c₂ : Option String) :
    collectorInit a b c env = collectorInit a₂ b₂ c₂ env ∧
    (env ("REDDIT_USER_AGENT") = none →
      (collectorInit a b c env).user_agent = "reddit-docker-app") ∧
    (∀ v, env ("REDDIT_USER_AGENT") = some v →
      (collectorInit a b c env).user_agent = v) ∧
    (collectorInit a b c env).client_id = env ("REDDIT_CLIENT_ID") ∧
    (collectorInit a b c env).client_secret = env ("REDDIT_CLIENT_SECRET") := by
  refine ⟨rfl, ?_, ?_, rfl, rfl⟩
  · intro h
    simp [collectorInit, h]
  · intro v h
    simp [collectorInit, h]

/-- C10 (witness): different constructor arguments, empty environment —
identical sessions with the default user agent. -/
theorem c10_init_env_only_witness :
    collectorInit (some ("id")) (some ("sec")) (some ("ua"))
      (fun _ => none) = collectorInit none none none (fun _ => none) ∧
    (collectorInit (some ("id")) (some ("sec")) (some ("ua"))
      (fun _ => none)).user_agent = "reddit-docker-app" :=
  ⟨(c10_init_env_only (fun _ => none) (some ("id")) (some ("sec"))
      (some ("ua")) none none none).1,
   (c10_init_env_only (fun _ => none) (some ("id")) (some ("sec"))
      (some ("ua")) none none none).2.1 rfl⟩
